import Mathlib

/-!
Verification of the chat-completion streaming core (`src/stream.ts`,
`src/request.ts`): the chunk transformer `modifyChunk`, the record-stream
drain `streamChatResponse`, the orchestrator `getResponseStream` /
`streamSingleResponse`, and the retry wrapper `withExponentialBackoff`.

Transport byte chunks are modelled as Lean strings (`Buffer.toString` is the
identity on the decoded text).  The JavaScript builtins `JSON.parse` and
`JSON.stringify` are modelled by an executable JSON reader/printer below;
JSON number literals are modelled as integers (no payload in this protocol
carries fractional numbers), and `\u` escapes naming lone UTF-16 surrogates
are rejected (Lean characters are unicode scalar values).
-/

/-- A JSON value as produced by `JSON.parse`. -/
inductive JsonValue where
  | null : JsonValue
  | bool (b : Bool) : JsonValue
  | num (n : Int) : JsonValue
  | str (s : String) : JsonValue
  | arr (items : List JsonValue) : JsonValue
  | obj (fields : List (String × JsonValue)) : JsonValue

/-- JSON whitespace (the four characters `JSON.parse` skips). -/
def isWsChar (c : Char) : Bool :=
  c = ' ' || c = '\t' || c = '\n' || c = '\r'

/-- Drops leading JSON whitespace. -/
def skipWs : List Char → List Char
  | [] => []
  | c :: rest => if isWsChar c then skipWs rest else c :: rest

/-- Value of one hexadecimal digit (JSON allows both cases in `\u` escapes). -/
def fromHexDigit (c : Char) : Option Nat :=
  if c.isDigit then some (c.toNat - 48)
  else if 'a' ≤ c && c ≤ 'f' then some (c.toNat - 87)
  else if 'A' ≤ c && c ≤ 'F' then some (c.toNat - 55)
  else none

/-- Value of a four-hex-digit group of a `\uXXXX` escape. -/
def hex4 (a b c d : Char) : Option Nat :=
  match fromHexDigit a, fromHexDigit b, fromHexDigit c, fromHexDigit d with
  | some x, some y, some z, some w => some (4096 * x + 256 * y + 16 * z + w)
  | _, _, _, _ => none

/-- Decodes one backslash escape character of a JSON string literal. -/
def unescapeChar (e : Char) : Option Char :=
  if e = '"' then some '"'
  else if e = '\\' then some '\\'
  else if e = '/' then some '/'
  else if e = 'b' then some '\x08'
  else if e = 'f' then some '\x0c'
  else if e = 'n' then some '\n'
  else if e = 'r' then some '\r'
  else if e = 't' then some '\t'
  else none

/-- Reads the body of a JSON string literal after its opening quote, up to and
including the closing quote; returns the decoded characters and the remaining
input.  Raw control characters are rejected, as in `JSON.parse`. -/
def parseStringBody : List Char → Option (List Char × List Char)
  | [] => none
  | c :: rest =>
    if c = '"' then some ([], rest)
    else if c = '\\' then
      match rest with
      | [] => none
      | 'u' :: a :: b :: c2 :: d :: r3 =>
        (match hex4 a b c2 d with
         | none => none
         | some n =>
           if n < 55296 || 57343 < n then
             (parseStringBody r3).map (fun p => (Char.ofNat n :: p.1, p.2))
           else none)
      | e :: r2 =>
        (match unescapeChar e with
         | none => none
         | some ch => (parseStringBody r2).map (fun p => (ch :: p.1, p.2)))
    else if c.toNat < 32 then none
    else (parseStringBody rest).map (fun p => (c :: p.1, p.2))

/-- Accumulates a run of decimal digits. -/
def digitsLoop : List Char → Nat → Nat × List Char
  | [], acc => (acc, [])
  | c :: rest, acc =>
    if c.isDigit then digitsLoop rest (acc * 10 + (c.toNat - 48))
    else (acc, c :: rest)

/-- Reads a nonempty run of decimal digits; a following `.`, `e` or `E`
(fractional or exponent syntax, unused by this protocol) is not modelled. -/
def parseNatTok (s : List Char) : Option (Nat × List Char) :=
  match s with
  | [] => none
  | c :: rest =>
    if c.isDigit then
      match digitsLoop rest (c.toNat - 48) with
      | (_, '.' :: _) => none
      | (_, 'e' :: _) => none
      | (_, 'E' :: _) => none
      | p => some p
    else none

/-- Reads a JSON number token (integer form). -/
def parseNum (s : List Char) : Option (JsonValue × List Char) :=
  match s with
  | '-' :: r => (parseNatTok r).map (fun p => (JsonValue.num (-(p.1 : Int)), p.2))
  | r => (parseNatTok r).map (fun p => (JsonValue.num (p.1 : Int), p.2))

mutual

/-- Recursive-descent JSON value reader.  The fuel argument only bounds
nesting of the grammar (every recursive call strictly decreases it); the
top-level wrapper `jsonParseL` supplies enough fuel for any input. -/
def parseValue : Nat → List Char → Option (JsonValue × List Char)
  | 0, _ => none
  | fuel + 1, s =>
    match skipWs s with
    | 'n' :: 'u' :: 'l' :: 'l' :: r => some (JsonValue.null, r)
    | 't' :: 'r' :: 'u' :: 'e' :: r => some (JsonValue.bool true, r)
    | 'f' :: 'a' :: 'l' :: 's' :: 'e' :: r => some (JsonValue.bool false, r)
    | '"' :: r => (parseStringBody r).map (fun p => (JsonValue.str (String.mk p.1), p.2))
    | '[' :: r =>
      (match skipWs r with
       | ']' :: r2 => some (JsonValue.arr [], r2)
       | r2 => (parseItems fuel r2).map (fun p => (JsonValue.arr p.1, p.2)))
    | '\x7b' :: r =>
      (match skipWs r with
       | '\x7d' :: r2 => some (JsonValue.obj [], r2)
       | r2 => (parseMembers fuel r2).map (fun p => (JsonValue.obj p.1, p.2)))
    | r => parseNum r

/-- Reads the comma-separated items of a nonempty JSON array, including the
closing bracket. -/
def parseItems : Nat → List Char → Option (List JsonValue × List Char)
  | 0, _ => none
  | fuel + 1, s =>
    match parseValue fuel s with
    | none => none
    | some (v, r) =>
      match skipWs r with
      | ',' :: r2 => (parseItems fuel r2).map (fun p => (v :: p.1, p.2))
      | ']' :: r2 => some ([v], r2)
      | _ => none

/-- Reads the members of a nonempty JSON object, including the closing
brace. -/
def parseMembers : Nat → List Char → Option (List (String × JsonValue) × List Char)
  | 0, _ => none
  | fuel + 1, s =>
    match skipWs s with
    | '"' :: r =>
      (match parseStringBody r with
       | none => none
       | some (k, r1) =>
         match skipWs r1 with
         | ':' :: r2 =>
           (match parseValue fuel r2 with
            | none => none
            | some (v, r3) =>
              match skipWs r3 with
              | ',' :: r4 => (parseMembers fuel r4).map (fun p => ((String.mk k, v) :: p.1, p.2))
              | '\x7d' :: r4 => some ([(String.mk k, v)], r4)
              | _ => none)
         | _ => none)
    | _ => none

end

/-- Model of `JSON.parse` on a character list: reads one value and requires
the rest of the input to be whitespace, otherwise fails (throws). -/
def jsonParseL (cs : List Char) : Option JsonValue :=
  match parseValue (2 * cs.length + 2) cs with
  | some (v, rest) => if skipWs rest = [] then some v else none
  | none => none

/-- Lowercase hexadecimal digit, as printed by `JSON.stringify`. -/
def toHexDigit (n : Nat) : Char :=
  if n < 10 then Char.ofNat (48 + n) else Char.ofNat (87 + n)

/-- Escaping of one character inside a JSON string literal, as performed by
`JSON.stringify`. -/
def escapeChar (c : Char) : List Char :=
  if c = '"' then ['\\', '"']
  else if c = '\\' then ['\\', '\\']
  else if c = '\x08' then ['\\', 'b']
  else if c = '\t' then ['\\', 't']
  else if c = '\n' then ['\\', 'n']
  else if c = '\x0c' then ['\\', 'f']
  else if c = '\r' then ['\\', 'r']
  else if c.toNat < 32 then
    ['\\', 'u', '0', '0', toHexDigit (c.toNat / 16), toHexDigit (c.toNat % 16)]
  else [c]

/-- Escaping of a whole string, character by character. -/
def escapeStr : List Char → List Char
  | [] => []
  | c :: rest => escapeChar c ++ escapeStr rest

/-- The `StreamData` record of `src/stream.ts`: the token text decoded from
one transport chunk and the completion flag. -/
structure StreamData where
  data : String
  finished : Bool
deriving DecidableEq

/-- Characters of the fixed prefix of the serialized record, through the
opening quote of the `data` field value. -/
def jsonPrefixChars : List Char :=
  ['\x7b', '"', 'd', 'a', 't', 'a', '"', ':', '"']

/-- Characters following the closing quote of the `data` field value:
the `finished` member and the closing brace. -/
def jsonTailChars (finished : Bool) : List Char :=
  [',', '"', 'f', 'i', 'n', 'i', 's', 'h', 'e', 'd', '"', ':'] ++
    (if finished then ['t', 'r', 'u', 'e'] else ['f', 'a', 'l', 's', 'e']) ++ ['\x7d']

/-- Characters of `JSON.stringify({data, finished})` for a `StreamData`
object literal (fields in insertion order, no added whitespace). -/
def stringifyChars (d : StreamData) : List Char :=
  jsonPrefixChars ++ (escapeStr d.data.data ++ ('"' :: jsonTailChars d.finished))

/-- Model of `JSON.stringify` applied to a `StreamData` value. -/
def jsonStringifyStreamData (d : StreamData) : String :=
  String.mk (stringifyChars d)

/-! ## Constants of `src/stream.ts` and `src/request.ts` -/

/-- SSE data-field prefix. -/
def DATA_CHUNK_HEADER : String := "data: "

/-- Stream terminator sentinel. -/
def DATA_CHUNK_TERMINATOR : String := "[DONE]"

/-- Stop finish reason sentinel. -/
def STOP_FINISH_REASON : String := "stop"

/-- Sentinel separator appended after each serialized record. -/
def JSON_LINE_SEPARATOR : String := "___BASILISK_JSON_LINE_SEPARATOR___"

/-- Default retry budget of `withExponentialBackoff`. -/
def DEFAULT_MAX_RETRIES : Nat := 3

/-- Default initial retry delay in milliseconds. -/
def DEFAULT_INITIAL_RETRY_DELAY_MS : Nat := 1000

/-- Default jitter bound in milliseconds. -/
def DEFAULT_MAX_JITTER_MS : Nat := 1000

/-! ## The chunk transformer `modifyChunk` -/

/-- Whitespace trimmed from both ends by JavaScript `String.prototype.trim`
(the ASCII part; exotic unicode space characters are not modelled). -/
def isTrimWs (c : Char) : Bool :=
  c = ' ' || c = '\t' || c = '\n' || c = '\r' || c = '\x0b' || c = '\x0c'

/-- Model of JavaScript `trim`. -/
def trimChars (cs : List Char) : List Char :=
  ((cs.dropWhile isTrimWs).reverse.dropWhile isTrimWs).reverse

/-- Lines of one transport chunk as scanned by `modifyChunk`:
`chunk.toString().trim().split('\n').map(l => l.trim())`. -/
def chunkLines (chunk : String) : List (List Char) :=
  (List.splitOn '\n' (trimChars chunk.data)).map trimChars

/-- Value of a field of a JSON object; later duplicate keys win, as in
`JSON.parse`.  Property access on a non-object denotes `undefined` (`none`). -/
def lookupLast : List (String × JsonValue) → String → Option JsonValue
  | [], _ => none
  | (k', v) :: rest, k =>
    match lookupLast rest k with
    | some v' => some v'
    | none => if k' = k then some v else none

/-- Field access `v[k]` on a parsed JSON value (`undefined` when `v` is not
an object or lacks the field). -/
def objField : JsonValue → String → Option JsonValue
  | JsonValue.obj fields, k => lookupLast fields k
  | _, _ => none

/-- JavaScript truthiness of a possibly-undefined JSON value. -/
def truthyJson : Option JsonValue → Bool
  | none => false
  | some JsonValue.null => false
  | some (JsonValue.bool b) => b
  | some (JsonValue.num n) => n != 0
  | some (JsonValue.str s) => !s.isEmpty
  | some (JsonValue.arr _) => true
  | some (JsonValue.obj _) => true

/-- String form of a JSON value as an element of `Array.prototype.join`
(null and nested arrays display shallowly; never reached by this protocol,
whose `content` values are strings). -/
def jsArrayElemDisplay : JsonValue → String
  | JsonValue.null => ""
  | JsonValue.bool true => "true"
  | JsonValue.bool false => "false"
  | JsonValue.num n => toString n
  | JsonValue.str s => s
  | JsonValue.arr _ => ""
  | JsonValue.obj _ => "[object Object]"

/-- JavaScript string coercion of a possibly-undefined JSON value, as
performed by `+=` and by `Array.prototype.join`. -/
def jsDisplay : Option JsonValue → String
  | none => "undefined"
  | some JsonValue.null => "null"
  | some (JsonValue.bool true) => "true"
  | some (JsonValue.bool false) => "false"
  | some (JsonValue.num n) => toString n
  | some (JsonValue.str s) => s
  | some (JsonValue.arr xs) => String.intercalate "," (xs.map jsArrayElemDisplay)
  | some (JsonValue.obj _) => "[object Object]"

/-- The `try` block of `modifyChunk` applied to one successfully parsed
payload.  `none` means the block threw (the error is caught and logged):
destructuring `choices` from a non-object or `null`, `choices.length` on a
missing or non-array `choices`, the explicit `No choices returned from API`
error on an empty array, or destructuring the first choice when it is not an
object or its `delta` is missing or `null`.  Otherwise returns the token
pushed for this line (`content` when truthy) and whether
`finish_reason === 'stop'`. -/
def processPayload (v : JsonValue) : Option (Option String × Bool) :=
  match v with
  | JsonValue.obj fields =>
    (match lookupLast fields "choices" with
     | some (JsonValue.arr []) => none
     | some (JsonValue.arr (c0 :: _)) =>
       (match c0 with
        | JsonValue.obj cf =>
          (match lookupLast cf "delta" with
           | none => none
           | some JsonValue.null => none
           | some delta =>
             let content := objField delta "content"
             let fragment := if truthyJson content then some (jsDisplay content) else none
             let stop :=
               (match lookupLast cf "finish_reason" with
                | some (JsonValue.str s) => s = STOP_FINISH_REASON
                | _ => false)
             some (fragment, stop))
        | _ => none)
     | _ => none)
  | _ => none

/-- What the per-line body of `modifyChunk`'s loop does with one (already
trimmed) line. -/
inductive LineAction where
  | skip : LineAction
  | terminator : LineAction
  | record (fragment : Option String) (stop : Bool) : LineAction
deriving DecidableEq

/-- Classification of one line: skip lines without the `data: ` prefix;
break on the `[DONE]` terminator; otherwise parse the payload, skipping the
line on any parse or shape error. -/
def lineAction (l : List Char) : LineAction :=
  if DATA_CHUNK_HEADER.data.isPrefixOf l then
    (if l.drop DATA_CHUNK_HEADER.data.length = DATA_CHUNK_TERMINATOR.data then
      LineAction.terminator
    else
      match jsonParseL (l.drop DATA_CHUNK_HEADER.data.length) with
      | none => LineAction.skip
      | some v =>
        match processPayload v with
        | none => LineAction.skip
        | some (fragment, stop) => LineAction.record fragment stop)
  else LineAction.skip

/-- Concatenation of a token list: `tokens.join('')`. -/
def joinStr : List String → String
  | [] => ""
  | s :: rest => s ++ joinStr rest

/-- The line loop of `modifyChunk` with its two mutable locals: `tokens`
(the pushed content fragments, in order) and `finished`. -/
def processLinesAux : List (List Char) → List String → Bool → StreamData
  | [], tokens, finished => { data := joinStr tokens, finished := finished }
  | l :: rest, tokens, finished =>
    match lineAction l with
    | LineAction.skip => processLinesAux rest tokens finished
    | LineAction.terminator => { data := joinStr tokens, finished := finished }
    | LineAction.record fragment stop =>
      processLinesAux rest (tokens ++ fragment.toList) (finished || stop)

/-- The `StreamData` record computed from a chunk's trimmed lines. -/
def processLines (ls : List (List Char)) : StreamData :=
  processLinesAux ls [] false

/-- The record `modifyChunk` computes for one transport chunk. -/
def modifyChunkRecord (chunk : String) : StreamData :=
  processLines (chunkLines chunk)

/-- `modifyChunk`: the serialized record followed by the sentinel separator. -/
def modifyChunk (chunk : String) : String :=
  jsonStringifyStreamData (modifyChunkRecord chunk) ++ JSON_LINE_SEPARATOR

/-- `ModifyChunkStream._transform` pushes `modifyFunction(chunk)` exactly once
per input chunk and never signals an error, so the stage maps the chunk
sequence elementwise. -/
def modifyChunkStreamRun (chunks : List String) : List String :=
  chunks.map modifyChunk

/-! ## The consumer `streamChatResponse` -/

/-- JavaScript `String.prototype.split` with a nonempty string separator:
repeatedly cut at the leftmost separator occurrence.  The fuel argument is
only a structural-termination device; `splitStr` supplies `length + 1`,
which the scan (each step consuming at least one character) never exhausts. -/
def splitLoop (sep : List Char) : Nat → List Char → List Char → List (List Char)
  | 0, s, acc => [acc.reverse ++ s]
  | fuel + 1, s, acc =>
    match s with
    | [] => [acc.reverse]
    | c :: rest =>
      if sep.isPrefixOf s then acc.reverse :: splitLoop sep fuel (s.drop sep.length) []
      else splitLoop sep fuel rest (c :: acc)

/-- Model of `s.split(sep)`. -/
def splitStr (sep s : String) : List String :=
  (splitLoop sep.data (s.data.length + 1) s.data []).map String.mk

/-- One chunk's JSON segments as read by `streamChatResponse`:
`chunk.split(JSON_LINE_SEPARATOR).filter(l => l)`. -/
def segmentsOf (s : String) : List String :=
  (splitStr JSON_LINE_SEPARATOR s).filter (fun l => !l.isEmpty)

/-- One iteration of the inner loop of `streamChatResponse`:
`const { data, finished } = JSON.parse(json)`.  A `JSON.parse` failure (or
destructuring `null`) throws with no surrounding catch, rejecting the whole
call (`none`); otherwise `data` is read off the parsed value (coerced to
text by `+=`) and `finished` is used as a truthiness test. -/
def readStreamData (s : String) : Option (String × Bool) :=
  match jsonParseL s.data with
  | none => none
  | some JsonValue.null => none
  | some v => some (jsDisplay (objField v "data"), truthyJson (objField v "finished"))

/-- The inner (per-segment) loop of `streamChatResponse` over one chunk's
segments, carrying `responseStr`: `Sum.inl` is the early `return` on a record
with `finished` truthy, `Sum.inr` hands the accumulator to the next chunk. -/
def drainSegs : List String → String → Except Unit (String ⊕ String)
  | [], acc => Except.ok (Sum.inr acc)
  | seg :: rest, acc =>
    match readStreamData seg with
    | none => Except.error ()
    | some (d, fin) =>
      if fin then Except.ok (Sum.inl (acc ++ d))
      else drainSegs rest (acc ++ d)

/-- The outer (per-chunk) loop of `streamChatResponse`; when the stream ends
without a finished record the accumulated string is returned as-is. -/
def drainChunks : List String → String → Except Unit String
  | [], acc => Except.ok acc
  | chunk :: rest, acc =>
    match drainSegs (segmentsOf chunk) acc with
    | Except.error _ => Except.error ()
    | Except.ok (Sum.inl r) => Except.ok r
    | Except.ok (Sum.inr acc') => drainChunks rest acc'

/-- `streamChatResponse` applied to the normalized record stream. -/
def streamChatResponse (chunks : List String) : Except Unit String :=
  drainChunks chunks ""

/-- `streamSingleResponse` on an obtained transport stream: pipe the raw
chunks through the chunk transformer, then drain the record stream. -/
def streamSingleResponse (transportChunks : List String) : Except Unit String :=
  streamChatResponse (modifyChunkStreamRun transportChunks)

/-! ## The backoff executor `withExponentialBackoff` -/

/-- The retry loop of `withExponentialBackoff`.  `attempt i` is the outcome
of the invocation of `fn` made while `retryCount = i`; `fuel` is the number
of retries still allowed, i.e. `maxRetries - retryCount`, so `shouldRetry()`
(`retryCount < maxRetries`) holds exactly when `fuel > 0`.  Returns the
propagated result together with the number of invocations of `fn` made.
The sleep `waitBeforeRetry()` between attempts is timing-only; its computed
delay is modelled by `computeDelayMS` and `jitterMS`. -/
def backoffGo (attempt : Nat → Except ε α) : Nat → Nat → Except ε α × Nat
  | fuel, retryCount =>
    match attempt retryCount with
    | Except.ok t => (Except.ok t, 1)
    | Except.error e =>
      match fuel with
      | 0 => (Except.error e, 1)
      | f + 1 =>
        let r := backoffGo attempt f (retryCount + 1)
        (r.1, r.2 + 1)

/-- `withExponentialBackoff fn` with a given `maxRetries` (result and number
of attempts made). -/
def withExponentialBackoff (attempt : Nat → Except ε α) (maxRetries : Nat) :
    Except ε α × Nat :=
  backoffGo attempt maxRetries 0

/-- The jitter of `waitBeforeRetry`: `Math.floor(Math.random() * maxJitterMS)`
with `rand` the value returned by `Math.random()` (a rational in `[0, 1)`). -/
def jitterMS (rand : ℚ) (maxJitterMS : Nat) : Int :=
  Int.floor (rand * maxJitterMS)

/-- The delay computed by `waitBeforeRetry`:
`(initialRetryDelayMS + jitterMS) * 2 ** retryCount`. -/
def computeDelayMS (initialRetryDelayMS : Int) (jitter : Int) (retryCount : Nat) : Int :=
  (initialRetryDelayMS + jitter) * 2 ^ retryCount

/-! ## The orchestrator `getAPIStream` / `getResponseStream` -/

/-- An error propagated out of the transport request: an axios error with an
optional `response.data.error.message`, or any other thrown value, each with
its display text. -/
inductive UpstreamErr where
  | axios (responseMessage : Option String) (text : String) : UpstreamErr
  | other (text : String) : UpstreamErr
deriving DecidableEq

/-- The `console.error` diagnostic written by `getAPIStream`'s catch block:
for an axios error, `Error generating response: ` followed by
`err.response?.data?.error?.message ?? err`; otherwise the error itself. -/
def errLogLine : UpstreamErr → String
  | UpstreamErr.axios (some msg) _ => "Error generating response: " ++ msg
  | UpstreamErr.axios none text => "Error generating response: " ++ text
  | UpstreamErr.other text => text

/-- `getAPIStream`: run the streaming request under `withExponentialBackoff`;
an error surviving retry exhaustion is caught, logged, and turned into `null`
(no stream).  Returns the optional raw stream (its transport chunks) and the
diagnostic log lines written. -/
def getAPIStream (attempt : Nat → Except UpstreamErr (List String)) (maxRetries : Nat) :
    Option (List String) × List String :=
  match (withExponentialBackoff attempt maxRetries).1 with
  | Except.ok s => (some s, [])
  | Except.error e => (none, [errLogLine e])

/-- `getResponseStream`: throws `Error getting response from OpenAI` when no
stream was obtained, otherwise pipes the raw chunks through
`ModifyChunkStream`. -/
def getResponseStream (attempt : Nat → Except UpstreamErr (List String)) (maxRetries : Nat) :
    Except String (List String) × List String :=
  match getAPIStream attempt maxRetries with
  | (some s, logs) => (Except.ok (modifyChunkStreamRun s), logs)
  | (none, logs) => (Except.error "Error getting response from OpenAI", logs)

/-! ## Declarative forms used by the specification statements -/

/-- Whether a line is the terminator (`data: [DONE]` after trimming). -/
def isTermLine (l : List Char) : Bool :=
  match lineAction l with
  | LineAction.terminator => true
  | _ => false

/-- The content fragment a line contributes, if any. -/
def fragOf (l : List Char) : Option String :=
  match lineAction l with
  | LineAction.record f _ => f
  | _ => none

/-- Whether a line signals the stop reason. -/
def stopOf (l : List Char) : Bool :=
  match lineAction l with
  | LineAction.record _ s => s
  | _ => false

/-- The lines scanned before the first terminator line. -/
def effectiveLines (ls : List (List Char)) : List (List Char) :=
  ls.takeWhile (fun l => !isTermLine l)

/-- All content fragments of a chunk's lines, in line order, up to the first
terminator. -/
def fragmentsOf (ls : List (List Char)) : List String :=
  (effectiveLines ls).filterMap fragOf

/-- Whether any scanned line of the chunk signals the stop reason. -/
def anyStop (ls : List (List Char)) : Bool :=
  (effectiveLines ls).any stopOf

/-- Concatenation, in arrival order, of the `data` fields of a record list,
stopping at (and including) the first record with `finished = true`. -/
def drainRecords : List (String × Bool) → String
  | [] => ""
  | (d, fin) :: rest => if fin then d else d ++ drainRecords rest

/-- Like `drainRecords`, but telling apart an early stop (`Sum.inl`) from
exhaustion (`Sum.inr`). -/
def drainRecordsAux : List (String × Bool) → String ⊕ String
  | [] => Sum.inr ""
  | (d, fin) :: rest =>
    if fin then Sum.inl d
    else
      match drainRecordsAux rest with
      | Sum.inl r => Sum.inl (d ++ r)
      | Sum.inr r => Sum.inr (d ++ r)

/-- All records decoded from a normalized chunk sequence (every segment of
every chunk), when each segment parses. -/
def decodeAllRecords (chunks : List String) : Option (List (String × Bool)) :=
  ((chunks.map segmentsOf).flatten).mapM readStreamData

/-- The records decoded from a single normalized chunk. -/
def decodeChunkRecords (chunk : String) : Option (List (String × Bool)) :=
  (segmentsOf chunk).mapM readStreamData

/-- Concatenation of the data fields of a record list. -/
def concatData : List (String × Bool) → String
  | [] => ""
  | r :: rest => r.1 ++ concatData rest

/-- Whether `p` occurs as a contiguous run inside `l`. -/
def containsB (p : List Char) : List Char → Bool
  | [] => p.isPrefixOf []
  | c :: t => p.isPrefixOf (c :: t) || containsB p t

/-! ## General helper lemmas -/

theorem str_append_empty (s : String) : s ++ "" = s := by
  cases s with
  | mk l => exact congrArg String.mk (List.append_nil l)

theorem str_empty_append (s : String) : "" ++ s = s := rfl

theorem joinStr_append (a b : List String) : joinStr (a ++ b) = joinStr a ++ joinStr b := by
  induction a with
  | nil => rfl
  | cons s rest ih => simp [joinStr, ih, String.append_assoc]

/-! ## Backoff lemmas -/

theorem backoffGo_count_le {ε α : Type} (attempt : Nat → Except ε α) :
    ∀ (fuel rc : Nat), (backoffGo attempt fuel rc).2 ≤ fuel + 1 := by
  intro fuel
  induction fuel with
  | zero =>
    intro rc
    unfold backoffGo
    cases attempt rc <;> simp
  | succ f ih =>
    intro rc
    unfold backoffGo
    cases attempt rc with
    | ok t => simp
    | error e =>
      show (backoffGo attempt f (rc + 1)).2 + 1 ≤ f + 1 + 1
      exact Nat.add_le_add_right (ih (rc + 1)) 1

theorem backoffGo_all_fail {ε α : Type} (attempt : Nat → Except ε α) :
    ∀ (fuel rc : Nat), (∀ i, rc ≤ i → i ≤ rc + fuel → ∃ e, attempt i = Except.error e) →
      backoffGo attempt fuel rc = (attempt (rc + fuel), fuel + 1) := by
  intro fuel
  induction fuel with
  | zero =>
    intro rc h
    obtain ⟨e, he⟩ := h rc (Nat.le_refl rc) (by omega)
    unfold backoffGo
    simp only [Nat.add_zero, he]
  | succ f ih =>
    intro rc h
    obtain ⟨e, he⟩ := h rc (Nat.le_refl rc) (by omega)
    unfold backoffGo
    rw [he]
    have hrec := ih (rc + 1) (fun i h1 h2 => h i (by omega) (by omega))
    show ((backoffGo attempt f (rc + 1)).1, (backoffGo attempt f (rc + 1)).2 + 1)
      = (attempt (rc + (f + 1)), f + 1 + 1)
    rw [hrec, show rc + 1 + f = rc + (f + 1) from by omega]

theorem backoffGo_first_success {ε α : Type} (attempt : Nat → Except ε α) :
    ∀ (i fuel rc : Nat) (t : α), i ≤ fuel →
      (∀ j, rc ≤ j → j < rc + i → ∃ e, attempt j = Except.error e) →
      attempt (rc + i) = Except.ok t →
      backoffGo attempt fuel rc = (Except.ok t, i + 1) := by
  intro i
  induction i with
  | zero =>
    intro fuel rc t _ _ hok
    rw [Nat.add_zero] at hok
    unfold backoffGo
    rw [hok]
  | succ n ih =>
    intro fuel rc t hle hfail hok
    obtain ⟨e, he⟩ := hfail rc (Nat.le_refl rc) (by omega)
    obtain ⟨f, rfl⟩ : ∃ f, fuel = f + 1 := ⟨fuel - 1, by omega⟩
    unfold backoffGo
    rw [he]
    have hrec := ih f (rc + 1) t (by omega) (fun j h1 h2 => hfail j (by omega) (by omega))
      (by rw [show rc + 1 + n = rc + (n + 1) from by omega]; exact hok)
    show ((backoffGo attempt f (rc + 1)).1, (backoffGo attempt f (rc + 1)).2 + 1)
      = (Except.ok t, n + 1 + 1)
    rw [hrec]

/-- C3.  `withExponentialBackoff` invokes the operation at most
`maxRetries + 1` times; when every attempt fails it makes exactly
`maxRetries + 1` attempts and propagates the final attempt's error unchanged;
a successful attempt returns its result immediately with no further
attempts. -/
theorem spec_c3_retry_budget {ε α : Type} (attempt : Nat → Except ε α) (m : Nat) :
    (withExponentialBackoff attempt m).2 ≤ m + 1
    ∧ ((∀ i, i ≤ m → ∃ e, attempt i = Except.error e) →
        withExponentialBackoff attempt m = (attempt m, m + 1))
    ∧ (∀ i t, i ≤ m → (∀ j, j < i → ∃ e, attempt j = Except.error e) →
        attempt i = Except.ok t →
        withExponentialBackoff attempt m = (Except.ok t, i + 1)) := by
  refine ⟨backoffGo_count_le attempt m 0, ?_, ?_⟩
  · intro h
    have := backoffGo_all_fail attempt m 0 (fun i h1 h2 => h i (by omega))
    simpa using this
  · intro i t hi hfail hok
    exact backoffGo_first_success attempt i m 0 t hi (fun j _ h2 => hfail j (by omega))
      (by simpa using hok)

/-- Witness for C3 at `maxRetries = 2` and an operation failing with its
attempt index: exactly three attempts, final error propagated. -/
theorem spec_c3_retry_budget_witness :
    (∀ i, i ≤ 2 → ∃ e, (fun j => (Except.error j : Except Nat Nat)) i = Except.error e)
    ∧ withExponentialBackoff (fun j => (Except.error j : Except Nat Nat)) 2
        = (Except.error 2, 3) :=
  ⟨fun i _ => ⟨i, rfl⟩,
    (spec_c3_retry_budget (fun j => (Except.error j : Except Nat Nat)) 2).2.1
      (fun i _ => ⟨i, rfl⟩)⟩

/-- C8.  The delay before retry `retryCount` is
`(initialRetryDelayMS + jitter) * 2 ** retryCount`, where the jitter
`Math.floor(Math.random() * maxJitterMS)` lies in `[0, maxJitterMS)` (and is
`0` when `maxJitterMS = 0`); with jitter fixed at `0` consecutive delays have
ratio exactly `2`, and under the configured initial delay (1000 ms) they
strictly increase. -/
theorem spec_c8_backoff_delay :
    (∀ (rand : ℚ) (maxJitterMS : Nat), 0 ≤ rand → rand < 1 →
        0 ≤ jitterMS rand maxJitterMS
        ∧ (0 < maxJitterMS → jitterMS rand maxJitterMS < maxJitterMS)
        ∧ (maxJitterMS = 0 → jitterMS rand maxJitterMS = 0))
    ∧ (∀ (initial jitter : Int) (r : Nat),
        computeDelayMS initial jitter r = (initial + jitter) * 2 ^ r)
    ∧ (∀ (initial : Int) (r : Nat),
        computeDelayMS initial 0 (r + 1) = 2 * computeDelayMS initial 0 r)
    ∧ (∀ r : Nat,
        computeDelayMS (DEFAULT_INITIAL_RETRY_DELAY_MS : Int) 0 r
          < computeDelayMS (DEFAULT_INITIAL_RETRY_DELAY_MS : Int) 0 (r + 1)) := by
  refine ⟨?_, fun _ _ _ => rfl, ?_, ?_⟩
  · intro rand maxJitterMS h0 h1
    refine ⟨Int.le_floor.2 (by positivity), ?_, ?_⟩
    · intro hpos
      apply Int.floor_lt.2
      push_cast
      calc rand * (maxJitterMS : ℚ) < 1 * (maxJitterMS : ℚ) := by
            apply mul_lt_mul_of_pos_right h1
            exact_mod_cast hpos
        _ = (maxJitterMS : ℚ) := one_mul _
    · intro h
      subst h
      simp [jitterMS]
  · intro initial r
    unfold computeDelayMS
    rw [pow_succ]
    ring
  · intro r
    unfold computeDelayMS
    have hp : (0 : Int) < 2 ^ r := pow_pos (by norm_num) r
    have : (DEFAULT_INITIAL_RETRY_DELAY_MS : Int) = 1000 := rfl
    rw [this, pow_succ]
    nlinarith

/-- Witness for C8: with `Math.random() = 0` and the default configuration,
the jitter is `0` and the first three delays are 1000, 2000, 4000. -/
theorem spec_c8_backoff_delay_witness :
    ((0 : ℚ) ≤ 0 ∧ (0 : ℚ) < 1 ∧ 0 ≤ jitterMS 0 DEFAULT_MAX_JITTER_MS)
    ∧ computeDelayMS (DEFAULT_INITIAL_RETRY_DELAY_MS : Int) 0 1
        = 2 * computeDelayMS (DEFAULT_INITIAL_RETRY_DELAY_MS : Int) 0 0
    ∧ computeDelayMS (DEFAULT_INITIAL_RETRY_DELAY_MS : Int) 0 0
        < computeDelayMS (DEFAULT_INITIAL_RETRY_DELAY_MS : Int) 0 1 :=
  ⟨⟨le_refl 0, by norm_num,
      (spec_c8_backoff_delay.1 0 DEFAULT_MAX_JITTER_MS (le_refl 0) (by norm_num)).1⟩,
    spec_c8_backoff_delay.2.2.1 (DEFAULT_INITIAL_RETRY_DELAY_MS : Int) 0,
    spec_c8_backoff_delay.2.2.2 0⟩

/-! ## Line-loop lemmas for `modifyChunk` -/

theorem processLinesAux_term (pre : List (List Char)) :
    ∀ (post : List (List Char)) (l : List Char) (tokens : List String) (fin : Bool),
      lineAction l = LineAction.terminator →
      processLinesAux (pre ++ l :: post) tokens fin = processLinesAux pre tokens fin := by
  induction pre with
  | nil =>
    intro post l tokens fin h
    simp [processLinesAux, h]
  | cons p pre' ih =>
    intro post l tokens fin h
    cases hp : lineAction p with
    | skip =>
      simp only [List.cons_append, processLinesAux, hp]
      exact ih post l tokens fin h
    | terminator =>
      simp only [List.cons_append, processLinesAux, hp]
    | record f s =>
      simp only [List.cons_append, processLinesAux, hp]
      exact ih post l _ _ h

theorem processLinesAux_skip (pre : List (List Char)) :
    ∀ (post : List (List Char)) (l : List Char) (tokens : List String) (fin : Bool),
      lineAction l = LineAction.skip →
      processLinesAux (pre ++ l :: post) tokens fin = processLinesAux (pre ++ post) tokens fin := by
  induction pre with
  | nil =>
    intro post l tokens fin h
    simp [processLinesAux, h]
  | cons p pre' ih =>
    intro post l tokens fin h
    cases hp : lineAction p with
    | skip =>
      simp only [List.cons_append, processLinesAux, hp]
      exact ih post l tokens fin h
    | terminator =>
      simp only [List.cons_append, processLinesAux, hp]
    | record f s =>
      simp only [List.cons_append, processLinesAux, hp]
      exact ih post l _ _ h

theorem processLinesAux_spec (ls : List (List Char)) :
    ∀ (tokens : List String) (fin : Bool),
      processLinesAux ls tokens fin =
        ⟨joinStr tokens ++ joinStr (fragmentsOf ls), fin || anyStop ls⟩ := by
  induction ls with
  | nil =>
    intro tokens fin
    simp [processLinesAux, fragmentsOf, effectiveLines, anyStop, joinStr, str_append_empty]
  | cons l rest ih =>
    intro tokens fin
    cases h : lineAction l with
    | skip =>
      have ht : isTermLine l = false := by simp [isTermLine, h]
      have hf : fragOf l = none := by simp [fragOf, h]
      have hs : stopOf l = false := by simp [stopOf, h]
      simp [processLinesAux, h, ih, fragmentsOf, effectiveLines, anyStop,
        List.takeWhile_cons, ht, List.filterMap_cons, hf, hs]
    | terminator =>
      have ht : isTermLine l = true := by simp [isTermLine, h]
      simp [processLinesAux, h, fragmentsOf, effectiveLines, anyStop,
        List.takeWhile_cons, ht, joinStr, str_append_empty]
    | record f s =>
      have ht : isTermLine l = false := by simp [isTermLine, h]
      have hf : fragOf l = f := by simp [fragOf, h]
      have hs : stopOf l = s := by simp [stopOf, h]
      cases f with
      | none =>
        simp [processLinesAux, h, ih, fragmentsOf, effectiveLines, anyStop,
          List.takeWhile_cons, ht, List.filterMap_cons, hf, hs, Bool.or_assoc]
      | some x =>
        simp [processLinesAux, h, ih, fragmentsOf, effectiveLines, anyStop,
          List.takeWhile_cons, ht, List.filterMap_cons, hf, hs, Bool.or_assoc,
          joinStr_append, joinStr, str_append_empty, String.append_assoc]

/-! ## Concrete wire-format inputs used in the scenarios -/

/-- Transport chunk carrying content `Hel` with a null finish reason. -/
def helChunk : String :=
  "data: \x7b\"choices\":[\x7b\"delta\":\x7b\"content\":\"Hel\"\x7d,\"finish_reason\":null\x7d]\x7d"

/-- Transport chunk carrying content `lo` with finish reason `stop`. -/
def loChunk : String :=
  "data: \x7b\"choices\":[\x7b\"delta\":\x7b\"content\":\"lo\"\x7d,\"finish_reason\":\"stop\"\x7d]\x7d"

/-- A well-formed (trimmed) line carrying content `A`. -/
def okLineA : List Char :=
  "data: \x7b\"choices\":[\x7b\"delta\":\x7b\"content\":\"A\"\x7d,\"finish_reason\":null\x7d]\x7d".data

/-- A well-formed (trimmed) line carrying content `B`. -/
def okLineB : List Char :=
  "data: \x7b\"choices\":[\x7b\"delta\":\x7b\"content\":\"B\"\x7d,\"finish_reason\":null\x7d]\x7d".data

/-- A line whose payload is not valid JSON. -/
def badLine : List Char := "data: not json".data

/-- The terminator line. -/
def doneLine : List Char := "data: [DONE]".data

/-- A chunk with one invalid JSON line between two valid content lines. -/
def chunkWithBadLine : String :=
  "data: \x7b\"choices\":[\x7b\"delta\":\x7b\"content\":\"A\"\x7d,\"finish_reason\":null\x7d]\x7d\ndata: not json\ndata: \x7b\"choices\":[\x7b\"delta\":\x7b\"content\":\"B\"\x7d,\"finish_reason\":null\x7d]\x7d"

/-! ## Claim theorems: the chunk transformer -/

/-- C2.  The transform stage emits exactly one output per input chunk (the
stage is an elementwise map, so never zero and never more than one), each
output being the JSON serialization of one `StreamData` record followed by
the sentinel separator; and the chunk consisting only of the terminator line
`data: [DONE]` still yields the record `{data: "", finished: false}`. -/
theorem spec_c2_one_record_per_chunk :
    (∀ chunks : List String, (modifyChunkStreamRun chunks).length = chunks.length)
    ∧ (∀ chunk : String,
        modifyChunk chunk
          = jsonStringifyStreamData (modifyChunkRecord chunk) ++ JSON_LINE_SEPARATOR)
    ∧ modifyChunkRecord "data: [DONE]" = ⟨"", false⟩
    ∧ modifyChunk "data: [DONE]"
        = jsonStringifyStreamData ⟨"", false⟩ ++ JSON_LINE_SEPARATOR := by
  refine ⟨fun chunks => ?_, fun _ => rfl, by decide, by decide⟩
  simp [modifyChunkStreamRun]

/-- C5.  A terminator line short-circuits the chunk: every line after it is
ignored (even a well-formed one), the terminator is not an error, and the
chunk's single record is built from the lines before it. -/
theorem spec_c5_terminator_short_circuit (pre post : List (List Char)) (l : List Char)
    (h : lineAction l = LineAction.terminator) :
    processLines (pre ++ l :: post) = processLines pre :=
  processLinesAux_term pre post l [] false h

/-- Witness for C5: `data: [DONE]` between two well-formed lines; the line
after the terminator is dropped. -/
theorem spec_c5_terminator_short_circuit_witness :
    lineAction doneLine = LineAction.terminator
    ∧ processLines ([okLineA] ++ doneLine :: [okLineB]) = processLines [okLineA] :=
  ⟨by decide, spec_c5_terminator_short_circuit [okLineA] [okLineB] doneLine (by decide)⟩

/-- C6.  The emitted record's `data` is the concatenation, in line order, of
all `choices[0].delta.content` fragments of the chunk's lines up to the
first terminator, and `finished` is true iff any of those lines signalled
`finish_reason = "stop"`; a stop reason does not break the scan (fragments
of later lines still contribute), only the terminator does. -/
theorem spec_c6_record_contents (ls : List (List Char)) :
    processLines ls = ⟨joinStr (fragmentsOf ls), anyStop ls⟩ := by
  have h := processLinesAux_spec ls [] false
  simpa [processLines, joinStr] using h

/-- C7.  A line that fails JSON parsing (or shape checking) is skipped
without affecting the rest of the chunk — the transformer itself never
raises, every error being caught inside the loop — and concretely a chunk
with one invalid JSON line between two valid content lines still emits the
concatenation of the two valid fragments. -/
theorem spec_c7_malformed_line_resilience :
    (∀ (pre post : List (List Char)) (l : List Char), lineAction l = LineAction.skip →
        processLines (pre ++ l :: post) = processLines (pre ++ post))
    ∧ modifyChunkRecord chunkWithBadLine = ⟨"AB", false⟩ :=
  ⟨fun pre post l h => processLinesAux_skip pre post l [] false h, by decide⟩

/-- Witness for C7: the invalid line `data: not json` between two valid
lines is dropped from the scan. -/
theorem spec_c7_malformed_line_resilience_witness :
    lineAction badLine = LineAction.skip
    ∧ processLines ([okLineA] ++ badLine :: [okLineB]) = processLines ([okLineA] ++ [okLineB]) :=
  ⟨by decide, spec_c7_malformed_line_resilience.1 [okLineA] [okLineB] badLine (by decide)⟩

/-! ## Drain lemmas for `streamChatResponse` -/

theorem drainSegs_spec (segs : List String) :
    ∀ (acc : String) (rs : List (String × Bool)),
      segs.mapM readStreamData = some rs →
      drainSegs segs acc
        = Except.ok (Sum.map (fun r => acc ++ r) (fun r => acc ++ r) (drainRecordsAux rs)) := by
  induction segs with
  | nil =>
    intro acc rs h
    simp only [List.mapM_nil, Option.pure_def, Option.some.injEq] at h
    subst h
    simp [drainSegs, drainRecordsAux, str_append_empty]
  | cons seg rest ih =>
    intro acc rs h
    rw [List.mapM_cons] at h
    cases hr : readStreamData seg with
    | none => rw [hr] at h; simp at h
    | some p =>
      rw [hr] at h
      cases hm : rest.mapM readStreamData with
      | none => rw [hm] at h; simp at h
      | some rs' =>
        rw [hm] at h
        simp at h
        subst h
        obtain ⟨d, fin⟩ := p
        cases fin with
        | true => simp [drainSegs, hr, drainRecordsAux]
        | false =>
          have := ih (acc ++ d) rs' hm
          cases haux : drainRecordsAux rs' <;>
            simp_all [drainSegs, hr, drainRecordsAux, String.append_assoc]

theorem drainRecordsAux_append (rs1 rs2 : List (String × Bool)) :
    drainRecordsAux (rs1 ++ rs2) =
      (match drainRecordsAux rs1 with
       | Sum.inl r => Sum.inl r
       | Sum.inr r => Sum.map (fun x => r ++ x) (fun x => r ++ x) (drainRecordsAux rs2)) := by
  induction rs1 with
  | nil =>
    cases h2 : drainRecordsAux rs2 <;> simp [drainRecordsAux, h2, str_empty_append]
  | cons p rs1' ih =>
    obtain ⟨d, fin⟩ := p
    cases fin with
    | true => simp [drainRecordsAux]
    | false =>
      cases h1 : drainRecordsAux rs1' <;>
        cases h2 : drainRecordsAux rs2 <;>
          simp_all [drainRecordsAux, String.append_assoc]

theorem drainRecords_elim (rs : List (String × Bool)) :
    drainRecords rs = Sum.elim id id (drainRecordsAux rs) := by
  induction rs with
  | nil => rfl
  | cons p rest ih =>
    obtain ⟨d, fin⟩ := p
    cases fin with
    | true => simp [drainRecords, drainRecordsAux]
    | false =>
      cases h : drainRecordsAux rest <;> simp_all [drainRecords, drainRecordsAux]

theorem drainChunks_go (chunks : List String) :
    ∀ (acc : String) (rs : List (String × Bool)),
      ((chunks.map segmentsOf).flatten).mapM readStreamData = some rs →
      drainChunks chunks acc = Except.ok (acc ++ drainRecords rs) := by
  induction chunks with
  | nil =>
    intro acc rs h
    simp only [List.map_nil, List.flatten_nil, List.mapM_nil, Option.pure_def,
      Option.some.injEq] at h
    subst h
    simp [drainChunks, drainRecords, str_append_empty]
  | cons ch rest ih =>
    intro acc rs h
    rw [List.map_cons, List.flatten_cons, List.mapM_append] at h
    cases h1 : (segmentsOf ch).mapM readStreamData with
    | none => rw [h1] at h; simp at h
    | some rs1 =>
      rw [h1] at h
      cases h2 : ((rest.map segmentsOf).flatten).mapM readStreamData with
      | none => rw [h2] at h; simp at h
      | some rs2 =>
        rw [h2] at h
        simp at h
        subst h
        have hseg := drainSegs_spec (segmentsOf ch) acc rs1 h1
        cases haux : drainRecordsAux rs1 with
        | inl r =>
          rw [haux] at hseg
          simp only [Sum.map_inl] at hseg
          simp [drainChunks, hseg, drainRecords_elim, drainRecordsAux_append, haux]
        | inr r =>
          rw [haux] at hseg
          simp only [Sum.map_inr] at hseg
          have hrec := ih (acc ++ r) rs2 h2
          simp only [drainChunks, hseg, hrec]
          rw [drainRecords_elim (rs1 ++ rs2), drainRecordsAux_append, haux]
          cases h3 : drainRecordsAux rs2 <;>
            simp [drainRecords_elim, h3, String.append_assoc]

theorem drainRecords_of_no_finish (rs : List (String × Bool))
    (h : ∀ r ∈ rs, r.2 = false) : drainRecords rs = concatData rs := by
  induction rs with
  | nil => rfl
  | cons p rest ih =>
    obtain ⟨d, fin⟩ := p
    have hp : fin = false := h (d, fin) (List.mem_cons_self _ _)
    subst hp
    simp only [drainRecords, concatData, if_neg Bool.false_ne_true]
    rw [ih (fun r hr => h r (List.mem_cons_of_mem _ hr))]

/-! ## Claim theorems: the stream drain and the orchestrator -/

/-- C1.  `streamSingleResponse` returns the concatenation, in arrival order,
of the `data` fields of the decoded records, stopping at (and including) the
first record with `finished = true`, or returning the accumulated string at
stream end; in particular the two-chunk `Hel` / `lo` scenario yields
`Hello`. -/
theorem spec_c1_stream_single_response :
    (∀ (transportChunks : List String) (rs : List (String × Bool)),
        decodeAllRecords (modifyChunkStreamRun transportChunks) = some rs →
        streamSingleResponse transportChunks = Except.ok (drainRecords rs))
    ∧ streamSingleResponse [helChunk, loChunk] = Except.ok "Hello" := by
  constructor
  · intro transportChunks rs h
    have := drainChunks_go (modifyChunkStreamRun transportChunks) "" rs h
    simpa [streamSingleResponse, streamChatResponse, str_empty_append] using this
  · rfl

/-- Witness for C1 on the concrete two-chunk scenario. -/
theorem spec_c1_stream_single_response_witness :
    decodeAllRecords (modifyChunkStreamRun [helChunk, loChunk])
        = some [("Hel", false), ("lo", true)]
    ∧ streamSingleResponse [helChunk, loChunk]
        = Except.ok (drainRecords [("Hel", false), ("lo", true)]) :=
  ⟨rfl, spec_c1_stream_single_response.1 [helChunk, loChunk] [("Hel", false), ("lo", true)] rfl⟩

/-- C9.  When the record stream ends before any `finished = true` record,
`streamChatResponse` terminates normally (no failure) and returns the
concatenation of all record data — indistinguishable from a graceful stop,
which also returns a plain accumulated string. -/
theorem spec_c9_natural_end (chunks : List String) (rs : List (String × Bool))
    (h : decodeAllRecords chunks = some rs) (hnf : ∀ r ∈ rs, r.2 = false) :
    streamChatResponse chunks = Except.ok (concatData rs) := by
  have := drainChunks_go chunks "" rs h
  rw [drainRecords_of_no_finish rs hnf] at this
  simpa [streamChatResponse, str_empty_append] using this

/-- Witness for C9: a single chunk with no stop record returns its data. -/
theorem spec_c9_natural_end_witness :
    decodeAllRecords [modifyChunk helChunk] = some [("Hel", false)]
    ∧ streamChatResponse [modifyChunk helChunk] = Except.ok (concatData [("Hel", false)]) :=
  ⟨rfl, spec_c9_natural_end [modifyChunk helChunk] [("Hel", false)] rfl (by decide)⟩

/-- C4.  When every attempt fails, `getResponseStream` fails with the
descriptive error `Error getting response from OpenAI` (it does not return
an empty stream) after logging a diagnostic that surfaces the upstream error
message; when a stream is obtained, the call returns the transformed stream
and parse-level issues never surface as a failure. -/
theorem spec_c4_transport_error_surfaced :
    (∀ (attempt : Nat → Except UpstreamErr (List String)) (m : Nat) (e : UpstreamErr),
        (∀ i, i ≤ m → ∃ e', attempt i = Except.error e') →
        attempt m = Except.error e →
        getResponseStream attempt m
          = (Except.error "Error getting response from OpenAI", [errLogLine e]))
    ∧ (∀ msg text : String,
        errLogLine (UpstreamErr.axios (some msg) text) = "Error generating response: " ++ msg)
    ∧ (∀ (attempt : Nat → Except UpstreamErr (List String)) (m : Nat) (s : List String),
        attempt 0 = Except.ok s →
        getResponseStream attempt m = (Except.ok (modifyChunkStreamRun s), [])) := by
  refine ⟨?_, fun _ _ => rfl, ?_⟩
  · intro attempt m e hall hm
    have hb : withExponentialBackoff attempt m = (attempt m, m + 1) := by
      have := backoffGo_all_fail attempt m 0 (fun i _ h2 => hall i (by omega))
      simpa [withExponentialBackoff] using this
    simp [getResponseStream, getAPIStream, hb, hm]
  · intro attempt m s h0
    have hb : withExponentialBackoff attempt m = (Except.ok s, 1) := by
      have := backoffGo_first_success attempt 0 m 0 s (by omega)
        (fun j _ h2 => absurd h2 (by omega)) (by simpa using h0)
      simpa [withExponentialBackoff] using this
    simp [getResponseStream, getAPIStream, hb]

/-- An attempt function that always fails with an axios error carrying the
upstream message `boom`. -/
def failAttempt : Nat → Except UpstreamErr (List String) :=
  fun _ => Except.error (UpstreamErr.axios (some "boom") "request failed")

/-- Witness for C4: retries exhausted, descriptive failure, upstream message
surfaced in the diagnostic log. -/
theorem spec_c4_transport_error_surfaced_witness :
    getResponseStream failAttempt 1
      = (Except.error "Error getting response from OpenAI",
          ["Error generating response: boom"]) :=
  spec_c4_transport_error_surfaced.1 failAttempt 1
    (UpstreamErr.axios (some "boom") "request failed")
    (fun _ _ => ⟨UpstreamErr.axios (some "boom") "request failed", rfl⟩) rfl

/-! ## JSON string-literal round-trip (`JSON.parse` of `JSON.stringify`) -/

theorem psb_quote (ext : List Char) : parseStringBody ('"' :: ext) = some ([], ext) := by
  conv_lhs => unfold parseStringBody
  simp

theorem psb_plain (c : Char) (h1 : c ≠ '"') (h2 : c ≠ '\\') (h3 : ¬ c.toNat < 32) (rest : List Char) :
    parseStringBody (c :: rest) = (parseStringBody rest).map (fun p => (c :: p.1, p.2)) := by
  conv_lhs => unfold parseStringBody
  simp [h1, h2, h3]

theorem key_data (r : List Char) :
    parseStringBody ('d' :: 'a' :: 't' :: 'a' :: '"' :: r) = some (['d', 'a', 't', 'a'], r) := by
  simp [psb_plain, psb_quote]

theorem key_finished (r : List Char) :
    parseStringBody ('f' :: 'i' :: 'n' :: 'i' :: 's' :: 'h' :: 'e' :: 'd' :: '"' :: r)
      = some (['f', 'i', 'n', 'i', 's', 'h', 'e', 'd'], r) := by
  simp [psb_plain, psb_quote]

theorem val_true (n : Nat) (r : List Char) :
    parseValue (n + 1) ('t' :: 'r' :: 'u' :: 'e' :: r) = some (JsonValue.bool true, r) := by
  conv_lhs => unfold parseValue
  simp [skipWs, isWsChar]

theorem val_false (n : Nat) (r : List Char) :
    parseValue (n + 1) ('f' :: 'a' :: 'l' :: 's' :: 'e' :: r) = some (JsonValue.bool false, r) := by
  conv_lhs => unfold parseValue
  simp [skipWs, isWsChar]

theorem psb_esc_q (r2 : List Char) :
    parseStringBody ('\\' :: '"' :: r2) = (parseStringBody r2).map (fun p => ('"' :: p.1, p.2)) := by
  conv_lhs => unfold parseStringBody
  simp [unescapeChar]

theorem psb_esc_bs (r2 : List Char) :
    parseStringBody ('\\' :: '\\' :: r2) = (parseStringBody r2).map (fun p => ('\\' :: p.1, p.2)) := by
  conv_lhs => unfold parseStringBody
  simp [unescapeChar]

theorem psb_esc_b (r2 : List Char) :
    parseStringBody ('\\' :: 'b' :: r2) = (parseStringBody r2).map (fun p => ('\x08' :: p.1, p.2)) := by
  conv_lhs => unfold parseStringBody
  simp [unescapeChar]

theorem psb_esc_t (r2 : List Char) :
    parseStringBody ('\\' :: 't' :: r2) = (parseStringBody r2).map (fun p => ('\t' :: p.1, p.2)) := by
  conv_lhs => unfold parseStringBody
  simp [unescapeChar]

theorem psb_esc_n (r2 : List Char) :
    parseStringBody ('\\' :: 'n' :: r2) = (parseStringBody r2).map (fun p => ('\n' :: p.1, p.2)) := by
  conv_lhs => unfold parseStringBody
  simp [unescapeChar]

theorem psb_esc_f (r2 : List Char) :
    parseStringBody ('\\' :: 'f' :: r2) = (parseStringBody r2).map (fun p => ('\x0c' :: p.1, p.2)) := by
  conv_lhs => unfold parseStringBody
  simp [unescapeChar]

theorem psb_esc_r (r2 : List Char) :
    parseStringBody ('\\' :: 'r' :: r2) = (parseStringBody r2).map (fun p => ('\r' :: p.1, p.2)) := by
  conv_lhs => unfold parseStringBody
  simp [unescapeChar]

theorem psb_hex (h1 h2 : Char) (n1 n2 : Nat) (r3 : List Char)
    (hh1 : fromHexDigit h1 = some n1) (hh2 : fromHexDigit h2 = some n2)
    (hlt : 16 * n1 + n2 < 55296) :
    parseStringBody ('\\' :: 'u' :: '0' :: '0' :: h1 :: h2 :: r3)
      = (parseStringBody r3).map (fun p => (Char.ofNat (16 * n1 + n2) :: p.1, p.2)) := by
  conv_lhs => unfold parseStringBody
  simp [hex4, hh1, hh2, show fromHexDigit '0' = some 0 from rfl, hlt]

theorem fromHex_toHex : ∀ k, k < 16 → fromHexDigit (toHexDigit k) = some k := by decide

theorem parse_escape_roundtrip (cs : List Char) :
    ∀ ext, parseStringBody (escapeStr cs ++ '"' :: ext) = some (cs, ext) := by
  induction cs with
  | nil =>
    intro ext
    show parseStringBody ('"' :: ext) = some ([], ext)
    exact psb_quote ext
  | cons c cs' ih =>
    intro ext
    have hesc : escapeStr (c :: cs') ++ '"' :: ext = escapeChar c ++ (escapeStr cs' ++ '"' :: ext) := by
      simp [escapeStr]
    rw [hesc]
    by_cases h1 : c = '"'
    · subst h1
      rw [show escapeChar '"' = ['\\', '"'] from rfl]
      simp [psb_esc_q, ih ext]
    · by_cases h2 : c = '\\'
      · subst h2
        rw [show escapeChar '\\' = ['\\', '\\'] from rfl]
        simp [psb_esc_bs, ih ext]
      · by_cases h3 : c = '\x08'
        · subst h3
          rw [show escapeChar '\x08' = ['\\', 'b'] from rfl]
          simp [psb_esc_b, ih ext]
        · by_cases h4 : c = '\t'
          · subst h4
            rw [show escapeChar '\t' = ['\\', 't'] from rfl]
            simp [psb_esc_t, ih ext]
          · by_cases h5 : c = '\n'
            · subst h5
              rw [show escapeChar '\n' = ['\\', 'n'] from rfl]
              simp [psb_esc_n, ih ext]
            · by_cases h6 : c = '\x0c'
              · subst h6
                rw [show escapeChar '\x0c' = ['\\', 'f'] from rfl]
                simp [psb_esc_f, ih ext]
              · by_cases h7 : c = '\r'
                · subst h7
                  rw [show escapeChar '\r' = ['\\', 'r'] from rfl]
                  simp [psb_esc_r, ih ext]
                · by_cases h8 : c.toNat < 32
                  · have hesc2 : escapeChar c
                        = ['\\', 'u', '0', '0', toHexDigit (c.toNat / 16), toHexDigit (c.toNat % 16)] := by
                      unfold escapeChar
                      simp [h1, h2, h3, h4, h5, h6, h7, h8]
                    rw [hesc2]
                    simp only [List.cons_append, List.nil_append]
                    rw [psb_hex (toHexDigit (c.toNat / 16)) (toHexDigit (c.toNat % 16))
                      (c.toNat / 16) (c.toNat % 16) _
                      (fromHex_toHex _ (by omega)) (fromHex_toHex _ (Nat.mod_lt _ (by norm_num)))
                      (by omega)]
                    rw [ih ext]
                    have hc : 16 * (c.toNat / 16) + c.toNat % 16 = c.toNat := by omega
                    rw [hc, Char.ofNat_toNat]
                    rfl
                  · have hesc2 : escapeChar c = [c] := by
                      unfold escapeChar
                      simp [h1, h2, h3, h4, h5, h6, h7, h8]
                    rw [hesc2]
                    simp only [List.cons_append, List.nil_append]
                    rw [psb_plain c h1 h2 h8, ih ext]
                    rfl

theorem val_str (n : Nat) (cs r : List Char) :
    parseValue (n + 1) ('"' :: (escapeStr cs ++ '"' :: r))
      = some (JsonValue.str (String.mk cs), r) := by
  conv_lhs => unfold parseValue
  simp [skipWs, isWsChar, parse_escape_roundtrip]

theorem members_fin_true (n : Nat) (r : List Char) :
    parseMembers (n + 2) ('"' :: 'f' :: 'i' :: 'n' :: 'i' :: 's' :: 'h' :: 'e' :: 'd' :: '"'
        :: ':' :: 't' :: 'r' :: 'u' :: 'e' :: '\x7d' :: r)
      = some ([("finished", JsonValue.bool true)], r) := by
  conv_lhs => unfold parseMembers
  simp [skipWs, isWsChar, key_finished, val_true]

theorem members_fin_false (n : Nat) (r : List Char) :
    parseMembers (n + 2) ('"' :: 'f' :: 'i' :: 'n' :: 'i' :: 's' :: 'h' :: 'e' :: 'd' :: '"'
        :: ':' :: 'f' :: 'a' :: 'l' :: 's' :: 'e' :: '\x7d' :: r)
      = some ([("finished", JsonValue.bool false)], r) := by
  conv_lhs => unfold parseMembers
  simp [skipWs, isWsChar, key_finished, val_false]

theorem members_data (n : Nat) (cs : List Char) (b : Bool) :
    parseMembers (n + 3) ('"' :: 'd' :: 'a' :: 't' :: 'a' :: '"' :: ':' :: '"' ::
        (escapeStr cs ++ ('"' :: jsonTailChars b)))
      = some ([("data", JsonValue.str (String.mk cs)), ("finished", JsonValue.bool b)], []) := by
  cases b with
  | true =>
    conv_lhs => unfold parseMembers
    simp [skipWs, isWsChar, key_data, jsonTailChars, val_str, members_fin_true]
  | false =>
    conv_lhs => unfold parseMembers
    simp [skipWs, isWsChar, key_data, jsonTailChars, val_str, members_fin_false]

theorem parse_stringify (ds : String) (b : Bool) (n : Nat) :
    parseValue (n + 4) (stringifyChars ⟨ds, b⟩)
      = some (JsonValue.obj [("data", JsonValue.str ds), ("finished", JsonValue.bool b)], []) := by
  have hshape : stringifyChars ⟨ds, b⟩
      = '\x7b' :: '"' :: 'd' :: 'a' :: 't' :: 'a' :: '"' :: ':' :: '"' ::
        (escapeStr ds.data ++ ('"' :: jsonTailChars b)) := by
    simp [stringifyChars, jsonPrefixChars]
  rw [hshape]
  conv_lhs => unfold parseValue
  simp [skipWs, isWsChar, members_data]

/-! ## Occurrences of the sentinel separator -/

/-- Characters of the sentinel separator. -/
def sepChars : List Char := JSON_LINE_SEPARATOR.data

/-- `p` occurs as a contiguous run inside `l` (propositional form of
`containsB`). -/
def occursIn (p l : List Char) : Prop := ∃ i, p <+: l.drop i

theorem containsB_false_no_prefix (p : List Char) :
    ∀ l, containsB p l = false → ∀ i, ¬ p <+: l.drop i := by
  intro l
  induction l with
  | nil =>
    intro h i hp
    rw [List.drop_nil] at hp
    have := List.isPrefixOf_iff_prefix.2 hp
    unfold containsB at h
    simp [h] at this
  | cons c t ih =>
    intro h i hp
    unfold containsB at h
    simp only [Bool.or_eq_false_iff] at h
    cases i with
    | zero =>
      rw [List.drop_zero] at hp
      have := List.isPrefixOf_iff_prefix.2 hp
      simp [h.1] at this
    | succ j =>
      exact ih h.2 j hp

theorem head_mem_of_prefix {c : Char} {p' z : List Char} (h : (c :: p') <+: z) : c ∈ z := by
  obtain ⟨t, ht⟩ := h
  rw [← ht]
  simp

theorem occurs_skip_block (p rest : List Char) (hne : p ≠ []) :
    ∀ block, (∀ c ∈ block, c ∉ p) → occursIn p (block ++ rest) → occursIn p rest := by
  intro block
  induction block with
  | nil => intro _ h; simpa using h
  | cons b bl ih =>
    intro hb hocc
    obtain ⟨i, hi⟩ := hocc
    obtain ⟨q, p', rfl⟩ : ∃ q p', p = q :: p' := by
      cases p with
      | nil => exact absurd rfl hne
      | cons q p' => exact ⟨q, p', rfl⟩
    cases i with
    | zero =>
      rw [List.drop_zero, List.cons_append, List.cons_prefix_cons] at hi
      obtain ⟨rfl, _⟩ := hi
      exact absurd (List.mem_cons_self _ _) (fun hm => hb q (List.mem_cons_self _ _) hm)
    | succ j =>
      exact ih (fun c hc => hb c (List.mem_cons_of_mem _ hc)) ⟨j, by simpa using hi⟩

theorem toHex_not_sep : ∀ k, k < 16 → toHexDigit k ∉ sepChars := by decide

theorem escapeChar_ne_nil (c : Char) : escapeChar c ≠ [] := by
  unfold escapeChar
  split_ifs <;> simp

theorem escapeChar_cases (c : Char) :
    escapeChar c = [c] ∨ (∀ x ∈ escapeChar c, x ∉ sepChars) := by
  unfold escapeChar
  split_ifs with h1 h2 h3 h4 h5 h6 h7 h8
  · right
    intro x hx
    simp only [List.mem_cons, List.not_mem_nil, or_false] at hx
    rcases hx with rfl | rfl <;> decide
  · right
    intro x hx
    simp only [List.mem_cons, List.not_mem_nil, or_false] at hx
    rcases hx with rfl | rfl <;> decide
  · right
    intro x hx
    simp only [List.mem_cons, List.not_mem_nil, or_false] at hx
    rcases hx with rfl | rfl <;> decide
  · right
    intro x hx
    simp only [List.mem_cons, List.not_mem_nil, or_false] at hx
    rcases hx with rfl | rfl <;> decide
  · right
    intro x hx
    simp only [List.mem_cons, List.not_mem_nil, or_false] at hx
    rcases hx with rfl | rfl <;> decide
  · right
    intro x hx
    simp only [List.mem_cons, List.not_mem_nil, or_false] at hx
    rcases hx with rfl | rfl <;> decide
  · right
    intro x hx
    simp only [List.mem_cons, List.not_mem_nil, or_false] at hx
    rcases hx with rfl | rfl <;> decide
  · right
    intro x hx
    simp only [List.mem_cons, List.not_mem_nil, or_false] at hx
    rcases hx with rfl | rfl | rfl | rfl | rfl | rfl
    · decide
    · decide
    · decide
    · decide
    · exact toHex_not_sep _ (by omega)
    · exact toHex_not_sep _ (Nat.mod_lt _ (by norm_num))
  · left; rfl

theorem sep_prefix_escape :
    ∀ (cs : List Char) (p ext : List Char), (∀ c ∈ p, c ∈ sepChars) →
      (∀ c ∈ ext, c ∉ sepChars) → p <+: escapeStr cs ++ ext → p <+: cs := by
  intro cs
  induction cs with
  | nil =>
    intro p ext hp hext h
    cases p with
    | nil => exact List.nil_prefix
    | cons q p' =>
      have hq : q ∈ ext := head_mem_of_prefix (by simpa [escapeStr] using h)
      exact absurd (hp q (List.mem_cons_self _ _)) (hext q hq)
  | cons c0 cs' ih =>
    intro p ext hp hext h
    rcases escapeChar_cases c0 with heq | hblock
    · have hl : escapeStr (c0 :: cs') ++ ext = c0 :: (escapeStr cs' ++ ext) := by
        simp [escapeStr, heq]
      rw [hl] at h
      cases p with
      | nil => exact List.nil_prefix
      | cons q p' =>
        rw [List.cons_prefix_cons] at h
        obtain ⟨rfl, h'⟩ := h
        have := ih p' ext (fun x hx => hp x (List.mem_cons_of_mem _ hx)) hext h'
        exact List.cons_prefix_cons.2 ⟨rfl, this⟩
    · cases p with
      | nil => exact List.nil_prefix
      | cons q p' =>
        exfalso
        have hl : escapeStr (c0 :: cs') ++ ext = escapeChar c0 ++ (escapeStr cs' ++ ext) := by
          simp [escapeStr]
        rw [hl] at h
        cases hb : escapeChar c0 with
        | nil => exact escapeChar_ne_nil c0 hb
        | cons b bl =>
          rw [hb, List.cons_append, List.cons_prefix_cons] at h
          obtain ⟨rfl, _⟩ := h
          exact hblock q (hb ▸ List.mem_cons_self _ _) (hp q (List.mem_cons_self _ _))

theorem sep_occurs_escape (p : List Char) (hne : p ≠ []) (hp : ∀ c ∈ p, c ∈ sepChars) :
    ∀ (cs ext : List Char), (∀ c ∈ ext, c ∉ sepChars) →
      occursIn p (escapeStr cs ++ ext) → occursIn p cs := by
  intro cs
  induction cs with
  | nil =>
    intro ext hext hocc
    exfalso
    obtain ⟨i, hi⟩ := hocc
    obtain ⟨q, p', rfl⟩ : ∃ q p', p = q :: p' := by
      cases p with
      | nil => exact absurd rfl hne
      | cons q p' => exact ⟨q, p', rfl⟩
    have h1 : q ∈ (escapeStr [] ++ ext).drop i := head_mem_of_prefix hi
    have h2 : q ∈ ext := List.mem_of_mem_drop (by simpa [escapeStr] using h1)
    exact hext q h2 (hp q (List.mem_cons_self _ _))
  | cons c0 cs' ih =>
    intro ext hext hocc
    rcases escapeChar_cases c0 with heq | hblock
    · obtain ⟨i, hi⟩ := hocc
      have hl : escapeStr (c0 :: cs') ++ ext = c0 :: (escapeStr cs' ++ ext) := by
        simp [escapeStr, heq]
      rw [hl] at hi
      cases i with
      | zero =>
        rw [List.drop_zero] at hi
        have hpre : p <+: escapeStr (c0 :: cs') ++ ext := by rw [hl]; exact hi
        exact ⟨0, by simpa using sep_prefix_escape (c0 :: cs') p ext hp hext hpre⟩
      | succ j =>
        obtain ⟨k, hk⟩ := ih ext hext ⟨j, by simpa using hi⟩
        exact ⟨k + 1, by simpa using hk⟩
    · have hl : escapeStr (c0 :: cs') ++ ext = escapeChar c0 ++ (escapeStr cs' ++ ext) := by
        simp [escapeStr]
      rw [hl] at hocc
      have hskip : occursIn p (escapeStr cs' ++ ext) :=
        occurs_skip_block p _ hne (escapeChar c0)
          (fun x hx hxp => hblock x hx (hp x hxp)) hocc
      obtain ⟨k, hk⟩ := ih ext hext hskip
      exact ⟨k + 1, by simpa using hk⟩

theorem sep_occurs_stringify (ds : String) (b : Bool)
    (hocc : occursIn sepChars (stringifyChars ⟨ds, b⟩)) :
    occursIn sepChars ds.data := by
  have hpfx : ∀ c ∈ jsonPrefixChars, c ∉ sepChars := by decide
  have hocc2 : occursIn sepChars (escapeStr ds.data ++ ('"' :: jsonTailChars b)) := by
    apply occurs_skip_block sepChars _ (by decide) jsonPrefixChars
      (fun c hc hcp => hpfx c hc hcp)
    have hshape : stringifyChars ⟨ds, b⟩
        = jsonPrefixChars ++ (escapeStr ds.data ++ ('"' :: jsonTailChars b)) := rfl
    rwa [hshape] at hocc
  have hext : ∀ c ∈ '"' :: jsonTailChars b, c ∉ sepChars := by
    cases b <;> decide
  exact sep_occurs_escape sepChars (by decide) (fun c h => h) ds.data _ hext hocc2

theorem splitLoop_nil (sep : List Char) (f : Nat) (acc : List Char) :
    splitLoop sep (f + 1) [] acc = [acc.reverse] := by
  conv_lhs => unfold splitLoop

theorem splitLoop_no_occurrence (sep : List Char) (hsep : sep ≠ []) :
    ∀ (xs : List Char) (fuel : Nat) (acc : List Char),
      (∀ i, i < xs.length → ¬ sep <+: (xs ++ sep).drop i) →
      xs.length + sep.length + 1 ≤ fuel →
      splitLoop sep fuel (xs ++ sep) acc = [acc.reverse ++ xs, []] := by
  intro xs
  induction xs with
  | nil =>
    intro fuel acc _ hfuel
    obtain ⟨s0, srest, rfl⟩ : ∃ s0 srest, sep = s0 :: srest := by
      cases sep with
      | nil => exact absurd rfl hsep
      | cons s0 srest => exact ⟨s0, srest, rfl⟩
    obtain ⟨f, rfl⟩ : ∃ f, fuel = f + 1 := ⟨fuel - 1, by simp at hfuel; omega⟩
    rw [List.nil_append]
    conv_lhs => unfold splitLoop
    have hself : (s0 :: srest).isPrefixOf (s0 :: srest) = true :=
      List.isPrefixOf_iff_prefix.2 (List.prefix_refl _)
    simp only [hself, if_true]
    rw [List.drop_length]
    obtain ⟨f', rfl⟩ : ∃ f', f = f' + 1 := ⟨f - 1, by simp at hfuel; omega⟩
    rw [splitLoop_nil]
    simp
  | cons x xs' ih =>
    intro fuel acc hno hfuel
    obtain ⟨f, rfl⟩ : ∃ f, fuel = f + 1 := ⟨fuel - 1, by simp at hfuel; omega⟩
    have h0 : ¬ sep <+: ((x :: xs') ++ sep).drop 0 := hno 0 (by simp)
    rw [List.drop_zero] at h0
    have hb : sep.isPrefixOf (x :: (xs' ++ sep)) = false :=
      Bool.eq_false_iff.2 (fun hc => h0 (by
        rw [List.cons_append]
        exact List.isPrefixOf_iff_prefix.1 hc))
    rw [List.cons_append]
    conv_lhs => unfold splitLoop
    simp only [hb, Bool.false_eq_true, if_false]
    rw [ih f (x :: acc)
      (fun i hi => by
        have := hno (i + 1) (by simp; omega)
        rwa [List.cons_append, show ((x :: (xs' ++ sep)).drop (i + 1)) = (xs' ++ sep).drop i
          from rfl] at this)
      (by simp at hfuel ⊢; omega)]
    simp

/-! ## Round-trip and split of a serialized record -/

theorem stringify_length_pos (ds : String) (b : Bool) :
    1 ≤ (stringifyChars ⟨ds, b⟩).length := by
  cases b <;> simp [stringifyChars, jsonPrefixChars]

theorem jsonParse_stringify (ds : String) (b : Bool) :
    jsonParseL (stringifyChars ⟨ds, b⟩)
      = some (JsonValue.obj [("data", JsonValue.str ds), ("finished", JsonValue.bool b)]) := by
  unfold jsonParseL
  obtain ⟨n, hn⟩ : ∃ n, 2 * (stringifyChars ⟨ds, b⟩).length + 2 = n + 4 :=
    ⟨2 * (stringifyChars ⟨ds, b⟩).length - 2, by have := stringify_length_pos ds b; omega⟩
  rw [hn, parse_stringify]
  simp [skipWs]

theorem read_stringify (d : StreamData) :
    readStreamData (jsonStringifyStreamData d) = some (d.data, d.finished) := by
  obtain ⟨ds, b⟩ := d
  unfold readStreamData
  rw [show (jsonStringifyStreamData ⟨ds, b⟩).data = stringifyChars ⟨ds, b⟩ from rfl]
  rw [jsonParse_stringify]
  simp [objField, lookupLast, jsDisplay, truthyJson]

theorem stringify_decomp (ds : String) (b : Bool) :
    ∃ front, stringifyChars ⟨ds, b⟩ = front ++ ['\x7d'] := by
  refine ⟨jsonPrefixChars ++ (escapeStr ds.data ++ ('"' ::
    ([',', '"', 'f', 'i', 'n', 'i', 's', 'h', 'e', 'd', '"', ':'] ++
      (if b then ['t', 'r', 'u', 'e'] else ['f', 'a', 'l', 's', 'e'])))), ?_⟩
  cases b <;> simp [stringifyChars, jsonPrefixChars, jsonTailChars]

theorem no_sep_prefix_at (ds : String) (b : Bool)
    (h : containsB sepChars ds.data = false) :
    ∀ i, i < (stringifyChars ⟨ds, b⟩).length →
      ¬ sepChars <+: (stringifyChars ⟨ds, b⟩ ++ sepChars).drop i := by
  obtain ⟨front, hfront⟩ := stringify_decomp ds b
  intro i hi hpre
  rw [List.drop_append_of_le_length (le_of_lt hi)] at hpre
  rcases Nat.lt_or_ge ((stringifyChars ⟨ds, b⟩).drop i).length sepChars.length with hlt | hge
  · have ha1 : (stringifyChars ⟨ds, b⟩).drop i <+: (stringifyChars ⟨ds, b⟩).drop i ++ sepChars :=
      List.prefix_append _ _
    have ha2 : (stringifyChars ⟨ds, b⟩).drop i <+: sepChars :=
      List.prefix_of_prefix_length_le ha1 hpre (le_of_lt hlt)
    have hile : i ≤ front.length := by
      have hlen : (stringifyChars ⟨ds, b⟩).length = front.length + 1 := by
        rw [hfront]; simp
      omega
    have ha3 : (stringifyChars ⟨ds, b⟩).drop i = front.drop i ++ ['\x7d'] := by
      rw [hfront, List.drop_append_of_le_length hile]
    obtain ⟨t, ht⟩ := ha2
    have hmem : '\x7d' ∈ sepChars := by
      rw [← ht, ha3]
      simp
    exact absurd hmem (by decide)
  · have hpre2 : sepChars <+: (stringifyChars ⟨ds, b⟩).drop i :=
      List.prefix_of_prefix_length_le hpre (List.prefix_append _ _) hge
    obtain ⟨k, hk⟩ := sep_occurs_stringify ds b ⟨i, hpre2⟩
    exact containsB_false_no_prefix sepChars ds.data h k hk

theorem segments_modify (d : StreamData) (h : containsB sepChars d.data.data = false) :
    segmentsOf (jsonStringifyStreamData d ++ JSON_LINE_SEPARATOR) = [jsonStringifyStreamData d] := by
  obtain ⟨ds, b⟩ := d
  unfold segmentsOf splitStr
  have hdata : (jsonStringifyStreamData ⟨ds, b⟩ ++ JSON_LINE_SEPARATOR).data
      = stringifyChars ⟨ds, b⟩ ++ sepChars := rfl
  rw [hdata, show JSON_LINE_SEPARATOR.data = sepChars from rfl]
  rw [splitLoop_no_occurrence sepChars (by decide) (stringifyChars ⟨ds, b⟩) _ []
    (no_sep_prefix_at ds b h) (by simp)]
  have hne : (String.mk (stringifyChars ⟨ds, b⟩)).isEmpty = false := by
    have hcons : stringifyChars ⟨ds, b⟩
        = '\x7b' :: (['"', 'd', 'a', 't', 'a', '"', ':', '"']
            ++ (escapeStr ds.data ++ ('"' :: jsonTailChars b))) := rfl
    rw [hcons]
    rfl
  simp [List.filter, hne, jsonStringifyStreamData]
  rfl

/-- C10 (amended).  For every input chunk whose computed record data — the
concatenation of the extracted content fragments — does not contain the
sentinel separator string, the consumer-side decoding (splitting the
transformer's output on the separator, dropping empty segments, JSON-parsing
each remaining segment) recovers exactly one record equal to the record the
transformer computed: the decode step is a left inverse of the encode step.
The claim's original hypothesis (each individual fragment separator-free) is
not sufficient — see `spec_c10_encode_decode_counterexample`. -/
theorem spec_c10_encode_decode_left_inverse (chunk : String)
    (h : containsB sepChars (modifyChunkRecord chunk).data.data = false) :
    decodeChunkRecords (modifyChunk chunk)
      = some [((modifyChunkRecord chunk).data, (modifyChunkRecord chunk).finished)] := by
  show (segmentsOf (modifyChunk chunk)).mapM readStreamData = _
  rw [show modifyChunk chunk
      = jsonStringifyStreamData (modifyChunkRecord chunk) ++ JSON_LINE_SEPARATOR from rfl]
  rw [segments_modify (modifyChunkRecord chunk) h]
  rw [List.mapM_cons, read_stringify, List.mapM_nil]
  rfl

/-- A chunk whose two content fragments are separator-free individually but
concatenate to exactly the sentinel separator. -/
def sepFragChunk : String :=
  "data: \x7b\"choices\":[\x7b\"delta\":\x7b\"content\":\"___BASILISK_JSON_LINE_SEPARATOR__\"\x7d,\"finish_reason\":null\x7d]\x7d\ndata: \x7b\"choices\":[\x7b\"delta\":\x7b\"content\":\"_\"\x7d,\"finish_reason\":null\x7d]\x7d"

/-- Counterexample to C10 as stated: in `sepFragChunk` no single extracted
fragment contains the separator, yet decoding the transformer's output does
not recover the computed record (the serialized record splits apart at the
embedded separator and neither piece parses). -/
theorem spec_c10_encode_decode_counterexample :
    fragmentsOf (chunkLines sepFragChunk)
        = ["___BASILISK_JSON_LINE_SEPARATOR__", "_"]
    ∧ containsB JSON_LINE_SEPARATOR.data "___BASILISK_JSON_LINE_SEPARATOR__".data = false
    ∧ containsB JSON_LINE_SEPARATOR.data "_".data = false
    ∧ decodeChunkRecords (modifyChunk sepFragChunk)
        ≠ some [((modifyChunkRecord sepFragChunk).data, (modifyChunkRecord sepFragChunk).finished)] := by
  refine ⟨by decide, by decide, by decide, by decide⟩

/-- Witness for the amended C10 at a concrete separator-free chunk. -/
theorem spec_c10_encode_decode_left_inverse_witness :
    containsB sepChars (modifyChunkRecord helChunk).data.data = false
    ∧ decodeChunkRecords (modifyChunk helChunk)
        = some [((modifyChunkRecord helChunk).data, (modifyChunkRecord helChunk).finished)] :=
  ⟨by decide, spec_c10_encode_decode_left_inverse helChunk (by decide)⟩
